/-
  Verification of the clDNN pooling primitive descriptor and the
  topology finalization layer of the OpenVINO repository.

  The pooling primitive is embedded from
  `inference-engine/thirdparty/clDNN/api/cldnn/primitives/pooling.hpp`:
  the `pooling_mode` enumeration, the field set of `struct pooling`
  (including the fields inherited from `primitive_base`), one Lean
  function per C++ constructor overload, and `get_dependencies`.
  The `ngraph::Function` alias is embedded from
  `ngraph/core/include/ngraph/function.hpp`.
-/
import Mathlib

/-- Opaque string identifier of a primitive.  The empty string is the
sentinel for an absent/optional reference. -/
abbrev primitive_id : Type := String

/-- `cldnn::tensor` as used by the pooling header: a fixed-rank (4-D)
integer vector, a pure value type.  A default-constructed C++ tensor is
all zeros. -/
structure tensor where
  b : Int
  f : Int
  x : Int
  y : Int
deriving DecidableEq, Repr

/-- The default-constructed (all-zero) tensor, `cldnn::tensor()`. -/
def tensor.zero : tensor := ⟨0, 0, 0, 0⟩

/-- Modelled from the spec: `cldnn::padding` (declared in
`primitive.hpp`, which is not part of the given sources) is a pure value
type holding lower/upper pad sizes; the pooling header only stores it. -/
structure padding where
  lower_size : tensor := tensor.zero
  upper_size : tensor := tensor.zero
deriving DecidableEq, Repr

/-- Modelled from the spec: `cldnn::data_types` (declared outside the
given sources) is an enumeration of element types; the pooling header
only stores an optional value of it. -/
inductive data_types where
  | i8 | u8 | i32 | i64 | f16 | f32
deriving DecidableEq, Repr

/-- Select method for the pooling layer (`enum class pooling_mode`). -/
inductive pooling_mode where
  /-- Maximum-pooling method. -/
  | max
  /-- Average-pooling method - values. -/
  | average
  /-- Average-pooling method without values which are outside of the input. -/
  | average_no_padding
  /-- Maximum-pooling method with additional buffer to store argmax indices. -/
  | max_with_argmax
  /-- Pooling with bilinear interpolation. -/
  | bilinear
  /-- Deformable pooling with bilinear interpolation. -/
  | deformable_bilinear
deriving DecidableEq, Repr

/-- `struct pooling : public primitive_base<pooling>`.  The first five
fields are the `primitive_base` state set by its constructor
(`id`, `{input}`, `ext_prim_id`, `output_padding`, optional output data
type); the rest are the fields declared in `pooling` itself, in source
order.  `pad_end` appears in no constructor initializer list, so it
always holds the default-constructed tensor. -/
structure pooling where
  id : primitive_id
  input : List primitive_id
  ext_prim_id : primitive_id
  output_padding : padding
  output_data_type : Option data_types
  argmax : primitive_id
  mode : pooling_mode
  global_pooling : Bool
  input_offset : tensor
  stride : tensor
  size : tensor
  with_output_size : Bool
  output_size : tensor
  pad_end : tensor

/-- First constructor overload (lines 46-61): basic windowed pooling. -/
def pooling.create (id input : primitive_id) (mode : pooling_mode)
    (size stride input_offset : tensor)
    (ext_prim_id : primitive_id) (output_padding : padding) : pooling :=
  { id := id
    input := [input]
    ext_prim_id := ext_prim_id
    output_padding := output_padding
    output_data_type := none
    argmax := ""
    mode := mode
    global_pooling := false
    input_offset := input_offset
    stride := stride
    size := size
    with_output_size := false
    output_size := tensor.zero
    pad_end := tensor.zero }

/-- Second constructor overload (lines 74-90): pooling with argmax. -/
def pooling.createWithArgmax (id input argmax : primitive_id)
    (mode : pooling_mode) (size stride input_offset : tensor)
    (ext_prim_id : primitive_id) (output_padding : padding) : pooling :=
  { id := id
    input := [input]
    ext_prim_id := ext_prim_id
    output_padding := output_padding
    output_data_type := none
    argmax := argmax
    mode := mode
    global_pooling := false
    input_offset := input_offset
    stride := stride
    size := size
    with_output_size := false
    output_size := tensor.zero
    pad_end := tensor.zero }

/-- Third constructor overload (lines 100-118): pooling with
user-defined output size and explicit output data type. -/
def pooling.createWithOutputSize (id input : primitive_id)
    (mode : pooling_mode) (size stride input_offset : tensor)
    (output_size : tensor) (output_data_type : data_types)
    (ext_prim_id : primitive_id) (output_padding : padding) : pooling :=
  { id := id
    input := [input]
    ext_prim_id := ext_prim_id
    output_padding := output_padding
    output_data_type := some output_data_type
    argmax := ""
    mode := mode
    global_pooling := false
    input_offset := input_offset
    stride := stride
    size := size
    with_output_size := true
    output_size := output_size
    pad_end := tensor.zero }

/-- Fourth constructor overload (lines 130-148): pooling with argmax and
user-defined output size.  Note: this overload takes no output data type
and passes none to `primitive_base`. -/
def pooling.createWithArgmaxOutputSize (id input argmax : primitive_id)
    (mode : pooling_mode) (size stride input_offset : tensor)
    (output_size : tensor)
    (ext_prim_id : primitive_id) (output_padding : padding) : pooling :=
  { id := id
    input := [input]
    ext_prim_id := ext_prim_id
    output_padding := output_padding
    output_data_type := none
    argmax := argmax
    mode := mode
    global_pooling := false
    input_offset := input_offset
    stride := stride
    size := size
    with_output_size := true
    output_size := output_size
    pad_end := tensor.zero }

/-- Fifth constructor overload (lines 154-166): global pooling (kernel
size equal to the spatial dimension of the input tensor). -/
def pooling.createGlobal (id input : primitive_id) (mode : pooling_mode)
    (ext_prim_id : primitive_id) (output_padding : padding) : pooling :=
  { id := id
    input := [input]
    ext_prim_id := ext_prim_id
    output_padding := output_padding
    output_data_type := none
    argmax := ""
    mode := mode
    global_pooling := true
    input_offset := ⟨0, 0, 0, 0⟩
    stride := ⟨1, 1, 1, 1⟩
    size := ⟨0, 0, 0, 0⟩
    with_output_size := false
    output_size := tensor.zero
    pad_end := tensor.zero }

/-- `pooling::get_dependencies` (lines 189-193): the extra (non-primary)
dependency edges; empty when `argmax` is empty, else the one-element
sequence holding `argmax`. -/
def pooling.get_dependencies (p : pooling) : List primitive_id :=
  if (p.argmax : String).isEmpty then [] else [p.argmax]

/-- Modelled from the spec: the error taxonomy of the validation points
(`insert`, `finalize`, `build`); the graph container raising these is
not among the given sources. -/
inductive topo_error where
  | DuplicateId
  | UnknownReference
  | CycleDetected
  | InvalidConfiguration
deriving DecidableEq, Repr

/-- Modelled from the spec: the finalize-time validation of a pooling
primitive (the validator itself is not among the given sources):
`mode = max_with_argmax` requires a non-empty `argmax`. -/
def pooling.validate (p : pooling) : Except topo_error Unit :=
  if p.mode = pooling_mode.max_with_argmax ∧ p.argmax = "" then
    Except.error topo_error.InvalidConfiguration
  else
    Except.ok ()

/-- Modelled from the spec: the primitive capability contract seen by
the Topology — identity, primary input ids, and extra dependency ids. -/
structure prim where
  id : primitive_id
  inputs : List primitive_id
  extra : List primitive_id
deriving DecidableEq, Repr

/-- The edge set of one primitive: `inputs() ∪ extra_dependencies()`. -/
def prim.deps (p : prim) : List primitive_id := p.inputs ++ p.extra

/-- A pooling primitive viewed through the Topology capability
contract: its id, its primary input list, and `get_dependencies`. -/
def pooling.toPrim (p : pooling) : prim :=
  ⟨p.id, p.input, p.get_dependencies⟩

/-- The ids of a topology's primitives, in insertion order. -/
def allIds (t : List prim) : List primitive_id := t.map prim.id

/-- Modelled from the spec: whether some primitive references an id
absent from the topology. -/
def hasDangling (t : List prim) : Bool :=
  t.any (fun p => p.deps.any (fun d => !((allIds t).contains d)))

/-- A primitive is ready once all its dependencies are already placed. -/
def readyIn (placed : List primitive_id) (p : prim) : Bool :=
  p.deps.all (fun d => placed.contains d)

/-- Modelled from the spec: Kahn's algorithm with explicit fuel.  At
each step the first (insertion order, for determinism) primitive all of
whose dependencies are placed is appended to the order; if none is
ready while primitives remain, the graph has a cycle. -/
def kahnAux : Nat → List primitive_id → List prim → Except topo_error (List primitive_id)
  | _, placed, [] => Except.ok placed
  | 0, _, _ :: _ => Except.error topo_error.CycleDetected
  | Nat.succ n, placed, r :: rs =>
    match (r :: rs).find? (readyIn placed) with
    | none => Except.error topo_error.CycleDetected
    | some p => kahnAux n (placed ++ [p.id]) ((r :: rs).eraseP (fun q => q.id == p.id))

/-- Modelled from the spec: `Topology::finalize` — fails with
`UnknownReference` if any referenced id is absent, with `CycleDetected`
if the induced graph is cyclic, and otherwise returns a valid
topological order of the primitive ids. -/
def finalize (t : List prim) : Except topo_error (List primitive_id) :=
  if hasDangling t then Except.error topo_error.UnknownReference
  else kahnAux t.length [] t

/-- The dependency edge relation induced by a topology: `edgeRel t u v`
holds when some primitive of `t` has id `v` and references `u`, i.e.
the edge `u → v` (u must precede v). -/
def edgeRel (t : List prim) (u v : primitive_id) : Prop :=
  ∃ p, p ∈ t ∧ p.id = v ∧ u ∈ p.deps

/-- Position of an id in a topological order (first occurrence). -/
def idxOf (x : primitive_id) : List primitive_id → Nat
  | [] => 0
  | y :: l => if y = x then 0 else idxOf x l + 1

namespace ov

/-- Modelled from the spec: `ov::Function` (declared in
`openvino/core/function.hpp`, not among the given sources) packages a
finalized topology with its parameter, result, sink and paired
variable nodes. -/
structure Function where
  topology : List prim
  parameters : List primitive_id
  results : List primitive_id
  sinks : List primitive_id
  state_vars : List (String × primitive_id × primitive_id)

end ov

namespace ngraph

/-- `ngraph/core/include/ngraph/function.hpp` lines 17-19:
`namespace ngraph { using ov::Function; }` — the ngraph Function is a
type alias of the openvino core Function. -/
def Function : Type := ov.Function

end ngraph

/-- C1: for every pooling primitive, `extra_dependencies()` is the empty
sequence iff `argmax` is the empty string, and is exactly `[argmax]`
otherwise, whatever the other fields hold. -/
theorem pooling_extra_dependencies_iff (p : pooling) :
    (p.get_dependencies = [] ↔ p.argmax = "") ∧
    (p.argmax ≠ "" → p.get_dependencies = [p.argmax]) := by
  unfold pooling.get_dependencies
  split_ifs with h
  · have h' := (String.isEmpty_iff p.argmax).mp h
    exact ⟨by simp [h'], fun hne => absurd h' hne⟩
  · have h' : ¬ p.argmax = "" := fun he => h ((String.isEmpty_iff p.argmax).mpr he)
    exact ⟨by simp [h'], fun _ => rfl⟩

/-- Witness for C1: a pooling constructed with argmax `"a0"` has
`extra_dependencies() = ["a0"]`. -/
theorem pooling_extra_dependencies_iff_witness :
    (pooling.createWithArgmax "p0" "i0" "a0" pooling_mode.max_with_argmax
       tensor.zero tensor.zero tensor.zero "" {}).get_dependencies = ["a0"] :=
  (pooling_extra_dependencies_iff _).2 (by decide)

/-- C2: construction is a total function of its arguments (it just
stores the fields, so it cannot fail — in particular a pooling with
`mode = max_with_argmax` and `argmax = ""` is constructed successfully),
and the `InvalidConfiguration` rejection of that combination is raised
by the finalize-time validator, not by construction. -/
theorem pooling_construction_total_validate_at_finalize
    (id input argmax : primitive_id) (mode : pooling_mode)
    (size stride input_offset : tensor) (ext : primitive_id) (pad : padding) :
    ((pooling.createWithArgmax id input argmax mode size stride input_offset ext pad).argmax = argmax ∧
     (pooling.createWithArgmax id input argmax mode size stride input_offset ext pad).mode = mode) ∧
    (pooling.createWithArgmax id input "" pooling_mode.max_with_argmax
       size stride input_offset ext pad).validate
      = Except.error topo_error.InvalidConfiguration := by
  refine ⟨⟨rfl, rfl⟩, ?_⟩
  simp [pooling.validate, pooling.createWithArgmax]

/-- C3: the mode-only constructor overload is the only one setting
`global_pooling = true`, and it sets `input_offset = (0,0,0,0)`,
`stride = (1,1,1,1)`, `size = (0,0,0,0)` independently of every
argument; all four other overloads set `global_pooling = false`. -/
theorem pooling_global_pooling_only_mode_variant
    (id input argmax : primitive_id) (mode : pooling_mode)
    (size stride input_offset output_size : tensor) (odt : data_types)
    (ext : primitive_id) (pad : padding) :
    (pooling.createGlobal id input mode ext pad).global_pooling = true ∧
    (pooling.createGlobal id input mode ext pad).input_offset = ⟨0, 0, 0, 0⟩ ∧
    (pooling.createGlobal id input mode ext pad).stride = ⟨1, 1, 1, 1⟩ ∧
    (pooling.createGlobal id input mode ext pad).size = ⟨0, 0, 0, 0⟩ ∧
    (pooling.create id input mode size stride input_offset ext pad).global_pooling = false ∧
    (pooling.createWithArgmax id input argmax mode size stride input_offset ext pad).global_pooling = false ∧
    (pooling.createWithOutputSize id input mode size stride input_offset output_size odt ext pad).global_pooling = false ∧
    (pooling.createWithArgmaxOutputSize id input argmax mode size stride input_offset output_size ext pad).global_pooling = false :=
  ⟨rfl, rfl, rfl, rfl, rfl, rfl, rfl, rfl⟩

/-- C4: `with_output_size = true` exactly for the two constructor
overloads that take an `output_size` argument, which store that
argument; the three other overloads set `with_output_size = false`. -/
theorem pooling_with_output_size_iff_variant
    (id input argmax : primitive_id) (mode : pooling_mode)
    (size stride input_offset output_size : tensor) (odt : data_types)
    (ext : primitive_id) (pad : padding) :
    (pooling.create id input mode size stride input_offset ext pad).with_output_size = false ∧
    (pooling.createWithArgmax id input argmax mode size stride input_offset ext pad).with_output_size = false ∧
    (pooling.createGlobal id input mode ext pad).with_output_size = false ∧
    (pooling.createWithOutputSize id input mode size stride input_offset output_size odt ext pad).with_output_size = true ∧
    (pooling.createWithOutputSize id input mode size stride input_offset output_size odt ext pad).output_size = output_size ∧
    (pooling.createWithArgmaxOutputSize id input argmax mode size stride input_offset output_size ext pad).with_output_size = true ∧
    (pooling.createWithArgmaxOutputSize id input argmax mode size stride input_offset output_size ext pad).output_size = output_size :=
  ⟨rfl, rfl, rfl, rfl, rfl, rfl, rfl⟩

/-- C5 counterexample: the argmax+output_size overload takes no output
element type and records none, unlike the output-size-without-argmax
overload, which records the supplied type. -/
theorem pooling_argmax_output_size_dtype_cex :
    (pooling.createWithArgmaxOutputSize "p0" "i0" "a0" pooling_mode.max_with_argmax
       tensor.zero tensor.zero tensor.zero tensor.zero "" {}).output_data_type = none ∧
    (pooling.createWithOutputSize "p0" "i0" pooling_mode.max
       tensor.zero tensor.zero tensor.zero tensor.zero data_types.f32 "" {}).output_data_type
      = some data_types.f32 :=
  ⟨rfl, rfl⟩

/-- C5 amended: constructing with both an output_size and an argmax id
stores the argmax id, sets `with_output_size = true` and stores the
requested output_size as the output-size overload does, but it takes no
output element type and leaves `output_data_type` absent (`none`),
whereas the output-size-without-argmax overload records the supplied
element type. -/
theorem pooling_argmax_output_size_fields
    (id input argmax : primitive_id) (mode : pooling_mode)
    (size stride input_offset output_size : tensor) (odt : data_types)
    (ext : primitive_id) (pad : padding) :
    (pooling.createWithArgmaxOutputSize id input argmax mode size stride input_offset output_size ext pad).argmax = argmax ∧
    (pooling.createWithArgmaxOutputSize id input argmax mode size stride input_offset output_size ext pad).with_output_size = true ∧
    (pooling.createWithArgmaxOutputSize id input argmax mode size stride input_offset output_size ext pad).output_size = output_size ∧
    (pooling.createWithArgmaxOutputSize id input argmax mode size stride input_offset output_size ext pad).output_data_type = none ∧
    (pooling.createWithOutputSize id input mode size stride input_offset output_size odt ext pad).output_data_type = some odt :=
  ⟨rfl, rfl, rfl, rfl, rfl⟩

/-- C6 counterexample: a pooling constructed with the empty string as
its id has `id() = ""` — no constructor overload validates the id. -/
theorem pooling_empty_id_cex :
    (pooling.create "" "i0" pooling_mode.max
       tensor.zero tensor.zero tensor.zero "" {}).id = "" :=
  rfl

/-- C6 amended: every constructor overload stores the supplied id
verbatim and performs no validation, so `id()` is non-empty exactly when
the caller supplies a non-empty id. -/
theorem pooling_id_stored_verbatim
    (id input argmax : primitive_id) (mode : pooling_mode)
    (size stride input_offset output_size : tensor) (odt : data_types)
    (ext : primitive_id) (pad : padding) :
    (pooling.create id input mode size stride input_offset ext pad).id = id ∧
    (pooling.createWithArgmax id input argmax mode size stride input_offset ext pad).id = id ∧
    (pooling.createWithOutputSize id input mode size stride input_offset output_size odt ext pad).id = id ∧
    (pooling.createWithArgmaxOutputSize id input argmax mode size stride input_offset output_size ext pad).id = id ∧
    (pooling.createGlobal id input mode ext pad).id = id :=
  ⟨rfl, rfl, rfl, rfl, rfl⟩

/-- C8: every constructor overload sets the primary input list to
exactly the one-element sequence `[input]`. -/
theorem pooling_single_primary_input
    (id input argmax : primitive_id) (mode : pooling_mode)
    (size stride input_offset output_size : tensor) (odt : data_types)
    (ext : primitive_id) (pad : padding) :
    (pooling.create id input mode size stride input_offset ext pad).input = [input] ∧
    (pooling.createWithArgmax id input argmax mode size stride input_offset ext pad).input = [input] ∧
    (pooling.createWithOutputSize id input mode size stride input_offset output_size odt ext pad).input = [input] ∧
    (pooling.createWithArgmaxOutputSize id input argmax mode size stride input_offset output_size ext pad).input = [input] ∧
    (pooling.createGlobal id input mode ext pad).input = [input] :=
  ⟨rfl, rfl, rfl, rfl, rfl⟩

/-- C9: no constructor overload assigns `pad_end`; after construction
through any overload it holds the default-constructed (all-zero)
tensor, whatever the arguments. -/
theorem pooling_pad_end_default
    (id input argmax : primitive_id) (mode : pooling_mode)
    (size stride input_offset output_size : tensor) (odt : data_types)
    (ext : primitive_id) (pad : padding) :
    (pooling.create id input mode size stride input_offset ext pad).pad_end = tensor.zero ∧
    (pooling.createWithArgmax id input argmax mode size stride input_offset ext pad).pad_end = tensor.zero ∧
    (pooling.createWithOutputSize id input mode size stride input_offset output_size odt ext pad).pad_end = tensor.zero ∧
    (pooling.createWithArgmaxOutputSize id input argmax mode size stride input_offset output_size ext pad).pad_end = tensor.zero ∧
    (pooling.createGlobal id input mode ext pad).pad_end = tensor.zero :=
  ⟨rfl, rfl, rfl, rfl, rfl⟩

/-- C10: `ngraph::Function` is a type alias of the openvino core
Function, so the two types are definitionally equal and every operation
on one is the same operation on the other. -/
theorem ngraph_Function_is_ov_Function : ngraph.Function = ov.Function :=
  rfl

theorem idxOf_append_left {x : primitive_id} {l₁ : List primitive_id}
    (l₂ : List primitive_id) (h : x ∈ l₁) :
    idxOf x (l₁ ++ l₂) = idxOf x l₁ := by
  induction l₁ with
  | nil => cases h
  | cons y l ih =>
    by_cases hy : y = x
    · simp [idxOf, hy]
    · rcases List.mem_cons.mp h with h' | h'
      · exact absurd h'.symm hy
      · simp [idxOf, hy, ih h']

theorem idxOf_append_right {x : primitive_id} {l₁ : List primitive_id}
    (l₂ : List primitive_id) (h : x ∉ l₁) :
    idxOf x (l₁ ++ l₂) = l₁.length + idxOf x l₂ := by
  induction l₁ with
  | nil => simp
  | cons y l ih =>
    have hy : y ≠ x := fun he => h (he ▸ List.mem_cons_self y l)
    have hx : x ∉ l := fun hm => h (List.mem_cons_of_mem y hm)
    simp [idxOf, hy, ih hx]
    omega

theorem idxOf_lt_length {x : primitive_id} {l : List primitive_id} (h : x ∈ l) :
    idxOf x l < l.length := by
  induction l with
  | nil => cases h
  | cons y l ih =>
    by_cases hy : y = x
    · simp [idxOf, hy]
    · rcases List.mem_cons.mp h with h' | h'
      · exact absurd h'.symm hy
      · simpa [idxOf, hy] using ih h'

/-- In a finite nonempty vertex set in which every vertex has a
predecessor inside the set, the edge relation has a cycle. -/
theorem exists_cycle_of_all_have_pred (R : primitive_id → primitive_id → Prop)
    (S : List primitive_id) (hne : S ≠ [])
    (h : ∀ v ∈ S, ∃ u, u ∈ S ∧ R u v) :
    ∃ x, Relation.TransGen R x x := by
  classical
  -- iterate the choice of a predecessor, staying inside `S`
  let g : {x // x ∈ S} → {x // x ∈ S} :=
    fun x => ⟨(h x.1 x.2).choose, (h x.1 x.2).choose_spec.1⟩
  let f : Nat → {x // x ∈ S} := fun n => g^[n] ⟨S.head hne, List.head_mem hne⟩
  have hR : ∀ n, R (f (n + 1)).1 (f n).1 := by
    intro n
    have hiter : f (n + 1) = g (f n) := Function.iterate_succ_apply' g n _
    rw [hiter]
    exact (h (f n).1 (f n).2).choose_spec.2
  have hchain : ∀ i d, Relation.TransGen R (f (i + d + 1)).1 (f i).1 := by
    intro i d
    induction d with
    | zero => exact Relation.TransGen.single (hR i)
    | succ d ih => exact Relation.TransGen.head (hR (i + d + 1)) ih
  -- pigeonhole: two indices below |S| + 1 hit the same vertex
  have hmaps : ∀ n ∈ Finset.range (S.toFinset.card + 1), (f n).1 ∈ S.toFinset :=
    fun n _ => List.mem_toFinset.mpr (f n).2
  have hcard : S.toFinset.card < (Finset.range (S.toFinset.card + 1)).card := by
    simp
  obtain ⟨i, _, j, _, hij, hfij⟩ :=
    Finset.exists_ne_map_eq_of_card_lt_of_maps_to hcard hmaps
  rcases Nat.lt_or_ge i j with hlt | hge
  · refine ⟨(f j).1, ?_⟩
    have := hchain i (j - i - 1)
    have hj : i + (j - i - 1) + 1 = j := by omega
    rw [hj] at this
    rw [hfij] at this
    exact this
  · have hlt : j < i := Nat.lt_of_le_of_ne hge (fun he => hij he.symm)
    refine ⟨(f i).1, ?_⟩
    have := hchain j (i - j - 1)
    have hi : j + (i - j - 1) + 1 = i := by omega
    rw [hi] at this
    rw [← hfij] at this
    exact this

theorem mem_placed_of_readyIn {placed : List primitive_id} {p : prim}
    (h : readyIn placed p = true) {d : primitive_id} (hd : d ∈ p.deps) :
    d ∈ placed := by
  have hc := List.all_eq_true.mp h d hd
  exact List.elem_iff.mp hc

theorem exists_unplaced_of_not_readyIn {placed : List primitive_id} {q : prim}
    (h : ¬ readyIn placed q = true) : ∃ d, d ∈ q.deps ∧ d ∉ placed := by
  have h' : q.deps.all (fun d => placed.contains d) = false := by
    rcases Bool.eq_false_or_eq_true (readyIn placed q) with ht | hf
    · exact absurd ht h
    · exact hf
  obtain ⟨d, hd, hnc⟩ := List.all_eq_false.mp h'
  exact ⟨d, hd, fun hm => hnc (List.elem_iff.mpr hm)⟩

theorem hasDangling_eq_false_iff {t : List prim} :
    hasDangling t = false ↔ ∀ p ∈ t, ∀ d ∈ p.deps, d ∈ allIds t := by
  unfold hasDangling
  rw [← Bool.not_eq_true]
  simp

theorem kahnAux_ok_or_cycle :
    ∀ (fuel : Nat) (placed : List primitive_id) (rem : List prim),
      (∃ L, kahnAux fuel placed rem = Except.ok L) ∨
      kahnAux fuel placed rem = Except.error topo_error.CycleDetected := by
  intro fuel
  induction fuel with
  | zero =>
    intro placed rem
    cases rem with
    | nil => exact Or.inl ⟨placed, by simp [kahnAux]⟩
    | cons r rs => exact Or.inr (by simp [kahnAux])
  | succ n ih =>
    intro placed rem
    cases rem with
    | nil => exact Or.inl ⟨placed, by simp [kahnAux]⟩
    | cons r rs =>
      rcases hfind : (r :: rs).find? (readyIn placed) with _ | p
      · exact Or.inr (by simp [kahnAux, hfind])
      · rcases ih (placed ++ [p.id]) ((r :: rs).eraseP (fun q => q.id == p.id)) with ⟨L, hL⟩ | hL
        · exact Or.inl ⟨L, by simp [kahnAux, hfind, hL]⟩
        · exact Or.inr (by simp [kahnAux, hfind, hL])

/-- Every id the algorithm has placed respects the dependency edges:
once `kahnAux` returns an order, each placed id follows all ids it
depends on.  The invariants say: the placed ids and the remaining
primitives' ids together are a permutation of all ids, remaining
primitives come from `t`, and the already placed prefix is sound. -/
theorem kahnAux_sound (t : List prim) (hnodup : (allIds t).Nodup) :
    ∀ (fuel : Nat) (placed : List primitive_id) (rem : List prim) (L : List primitive_id),
      (placed ++ allIds rem).Perm (allIds t) →
      (∀ q ∈ rem, q ∈ t) →
      (∀ v ∈ placed, ∀ u, edgeRel t u v → u ∈ placed ∧ idxOf u placed < idxOf v placed) →
      kahnAux fuel placed rem = Except.ok L →
      L.Perm (allIds t) ∧
      (∀ v ∈ L, ∀ u, edgeRel t u v → u ∈ L ∧ idxOf u L < idxOf v L) := by
  intro fuel
  induction fuel with
  | zero =>
    intro placed rem L hperm hsub hsound heq
    cases rem with
    | nil =>
      have hpl : placed = L := by simpa [kahnAux] using heq
      subst hpl
      exact ⟨by simpa [allIds] using hperm, hsound⟩
    | cons r rs => simp [kahnAux] at heq
  | succ n ih =>
    intro placed rem L hperm hsub hsound heq
    cases rem with
    | nil =>
      have hpl : placed = L := by simpa [kahnAux] using heq
      subst hpl
      exact ⟨by simpa [allIds] using hperm, hsound⟩
    | cons r rs =>
      rcases hfind : (r :: rs).find? (readyIn placed) with _ | p
      · simp [kahnAux, hfind] at heq
      · simp only [kahnAux, hfind] at heq
        -- heq : kahnAux n (placed ++ [p.id]) ((r::rs).eraseP ...) = ok L
        have hmem : p ∈ r :: rs := List.mem_of_find?_eq_some hfind
        have hready : readyIn placed p = true := List.find?_some hfind
        have hpt : p ∈ t := hsub p hmem
        have hpid : (fun q => q.id == p.id) p = true := by simp
        obtain ⟨a, l₁, l₂, hl₁, hpa, hsplit, herase⟩ :=
          @List.exists_of_eraseP prim (fun q => q.id == p.id) (r :: rs) p hmem hpid
        have hnd2 : (placed ++ allIds (r :: rs)).Nodup := hperm.symm.nodup hnodup
        have hndrem : (allIds (r :: rs)).Nodup := (List.nodup_append.mp hnd2).2.1
        have hdisj := (List.nodup_append.mp hnd2).2.2
        have haid : a.id = p.id := by simpa using hpa
        have hmema : a ∈ r :: rs := by
          rw [hsplit]
          exact List.mem_append_right _ (List.mem_cons_self a l₂)
        have hap : a = p := List.inj_on_of_nodup_map hndrem hmema hmem haid
        rw [hap] at hsplit
        have e1 : allIds (l₁ ++ p :: l₂) = allIds l₁ ++ p.id :: allIds l₂ := by
          simp [allIds]
        have e2 : allIds (l₁ ++ l₂) = allIds l₁ ++ allIds l₂ := by
          simp [allIds]
        -- permutation invariant for the recursive call
        have hperm0 : (placed ++ (allIds l₁ ++ p.id :: allIds l₂)).Perm (allIds t) := by
          have h' := hperm
          rw [hsplit, e1] at h'
          exact h'
        have hstep : ((placed ++ [p.id]) ++ (allIds l₁ ++ allIds l₂)).Perm
            (placed ++ (allIds l₁ ++ p.id :: allIds l₂)) := by
          have hmid : (p.id :: (allIds l₁ ++ allIds l₂)).Perm
              (allIds l₁ ++ p.id :: allIds l₂) := List.perm_middle.symm
          have heq' : (placed ++ [p.id]) ++ (allIds l₁ ++ allIds l₂)
              = placed ++ (p.id :: (allIds l₁ ++ allIds l₂)) := by simp
          rw [heq']
          exact hmid.append_left placed
        have hperm' : ((placed ++ [p.id]) ++ allIds ((r :: rs).eraseP (fun q => q.id == p.id))).Perm (allIds t) := by
          rw [herase, e2]
          exact hstep.trans hperm0
        -- remaining primitives still come from t
        have hsub' : ∀ q ∈ (r :: rs).eraseP (fun q => q.id == p.id), q ∈ t := by
          intro q hq
          rw [herase] at hq
          apply hsub
          rw [hsplit]
          rcases List.mem_append.mp hq with h' | h'
          · exact List.mem_append_left _ h'
          · exact List.mem_append_right _ (List.mem_cons_of_mem _ h')
        -- p.id is fresh in placed
        have hpidnp : p.id ∉ placed := by
          intro hmem'
          exact hdisj hmem' (List.mem_map_of_mem prim.id hmem)
        -- soundness of the extended prefix
        have hsound' : ∀ v ∈ placed ++ [p.id], ∀ u, edgeRel t u v →
            u ∈ placed ++ [p.id] ∧ idxOf u (placed ++ [p.id]) < idxOf v (placed ++ [p.id]) := by
          intro v hv u hedge
          rcases List.mem_append.mp hv with hvp | hvp
          · obtain ⟨hup, hlt⟩ := hsound v hvp u hedge
            refine ⟨List.mem_append_left _ hup, ?_⟩
            rw [idxOf_append_left _ hup, idxOf_append_left _ hvp]
            exact hlt
          · have hvp' : v = p.id := by simpa using hvp
            subst hvp'
            obtain ⟨p', hp't, hp'id, hu⟩ := hedge
            have hp'p : p' = p := List.inj_on_of_nodup_map hnodup hp't hpt hp'id
            rw [hp'p] at hu
            have hup : u ∈ placed := mem_placed_of_readyIn hready hu
            refine ⟨List.mem_append_left _ hup, ?_⟩
            rw [idxOf_append_left _ hup, idxOf_append_right _ hpidnp]
            have h0 : idxOf p.id [p.id] = 0 := by simp [idxOf]
            rw [h0]
            have := idxOf_lt_length hup
            omega
        exact ih (placed ++ [p.id]) _ L hperm' hsub' hsound' heq

/-- When the dependency graph has no dangling reference and no cycle,
`kahnAux` always finds a ready primitive and terminates successfully. -/
theorem kahnAux_ok_of_acyclic (t : List prim)
    (hnd : ∀ p ∈ t, ∀ d ∈ p.deps, d ∈ allIds t)
    (hacyc : ∀ x, ¬ Relation.TransGen (edgeRel t) x x) :
    ∀ (fuel : Nat) (placed : List primitive_id) (rem : List prim),
      rem.length ≤ fuel →
      (∀ x ∈ allIds t, x ∈ placed ∨ x ∈ allIds rem) →
      (∀ q ∈ rem, q ∈ t) →
      ∃ L, kahnAux fuel placed rem = Except.ok L := by
  intro fuel
  induction fuel with
  | zero =>
    intro placed rem hlen hcover hsub
    cases rem with
    | nil => exact ⟨placed, by simp [kahnAux]⟩
    | cons r rs => simp at hlen
  | succ n ih =>
    intro placed rem hlen hcover hsub
    cases rem with
    | nil => exact ⟨placed, by simp [kahnAux]⟩
    | cons r rs =>
      rcases hfind : (r :: rs).find? (readyIn placed) with _ | p
      · -- no primitive is ready: every remaining id has a predecessor
        -- among the remaining ids, which yields a cycle
        exfalso
        have hnone := List.find?_eq_none.mp hfind
        have hpred : ∀ v ∈ allIds (r :: rs), ∃ u, u ∈ allIds (r :: rs) ∧ edgeRel t u v := by
          intro v hv
          obtain ⟨q, hq, hqid⟩ := List.mem_map.mp hv
          obtain ⟨d, hd, hdnp⟩ := exists_unplaced_of_not_readyIn (hnone q hq)
          have hdt : d ∈ allIds t := hnd q (hsub q hq) d hd
          have hdr : d ∈ allIds (r :: rs) := by
            rcases hcover d hdt with h' | h'
            · exact absurd h' hdnp
            · exact h'
          exact ⟨d, hdr, ⟨q, hsub q hq, hqid, hd⟩⟩
        obtain ⟨x, hx⟩ := exists_cycle_of_all_have_pred (edgeRel t) (allIds (r :: rs))
          (by simp [allIds]) hpred
        exact hacyc x hx
      · have hmem : p ∈ r :: rs := List.mem_of_find?_eq_some hfind
        have hpid : (fun q => q.id == p.id) p = true := by simp
        obtain ⟨a, l₁, l₂, hl₁, hpa, hsplit, herase⟩ :=
          @List.exists_of_eraseP prim (fun q => q.id == p.id) (r :: rs) p hmem hpid
        have haid : a.id = p.id := by simpa using hpa
        have hlen' : ((r :: rs).eraseP (fun q => q.id == p.id)).length ≤ n := by
          rw [herase]
          have : (r :: rs).length = l₁.length + l₂.length + 1 := by
            rw [hsplit]; simp; omega
          have hsl : (l₁ ++ l₂).length = l₁.length + l₂.length := by simp
          omega
        have hcover' : ∀ x ∈ allIds t,
            x ∈ placed ++ [p.id] ∨ x ∈ allIds ((r :: rs).eraseP (fun q => q.id == p.id)) := by
          intro x hx
          rcases hcover x hx with h' | h'
          · exact Or.inl (List.mem_append_left _ h')
          · rw [hsplit] at h'
            have : x ∈ allIds l₁ ++ a.id :: allIds l₂ := by
              simpa [allIds] using h'
            rcases List.mem_append.mp this with h2 | h2
            · refine Or.inr ?_
              rw [herase]
              have : x ∈ allIds l₁ ++ allIds l₂ := List.mem_append_left _ h2
              simpa [allIds] using this
            · rcases List.mem_cons.mp h2 with h3 | h3
              · refine Or.inl (List.mem_append_right _ ?_)
                rw [h3, haid]
                exact List.mem_cons_self _ _
              · refine Or.inr ?_
                rw [herase]
                have : x ∈ allIds l₁ ++ allIds l₂ := List.mem_append_right _ h3
                simpa [allIds] using this
        have hsub' : ∀ q ∈ (r :: rs).eraseP (fun q => q.id == p.id), q ∈ t := by
          intro q hq
          rw [herase] at hq
          apply hsub
          rw [hsplit]
          rcases List.mem_append.mp hq with h' | h'
          · exact List.mem_append_left _ h'
          · exact List.mem_append_right _ (List.mem_cons_of_mem _ h')
        obtain ⟨L, hL⟩ := ih (placed ++ [p.id]) _ hlen' hcover' hsub'
        exact ⟨L, by simp [kahnAux, hfind, hL]⟩

/-- Along any nonempty dependency path the position in a sound order
strictly increases. -/
theorem idxOf_lt_of_transGen (t : List prim) (L : List primitive_id)
    (hperm : L.Perm (allIds t))
    (hsound : ∀ v ∈ L, ∀ u, edgeRel t u v → u ∈ L ∧ idxOf u L < idxOf v L) :
    ∀ x y, Relation.TransGen (edgeRel t) x y → idxOf x L < idxOf y L := by
  have hmemL : ∀ u v, edgeRel t u v → v ∈ L := by
    intro u v hedge
    obtain ⟨p, hpt, hpid, _⟩ := hedge
    exact hperm.mem_iff.mpr (hpid ▸ List.mem_map_of_mem prim.id hpt)
  intro x y htg
  induction htg with
  | single h =>
    exact (hsound _ (hmemL _ _ h) _ h).2
  | tail htg h ih =>
    exact Nat.lt_trans ih (hsound _ (hmemL _ _ h) _ h).2

/-- C7: for every set of inserted primitives with pairwise distinct ids,
if every referenced id exists and the induced dependency graph is
acyclic then `finalize` succeeds with a topological order covering all
ids and consistent with every edge (`u → v` implies `order(u) <
order(v)`); when some referenced id is absent it fails with
`UnknownReference`, and when the graph has a cycle (and no reference is
dangling) it fails with `CycleDetected`. -/
theorem finalize_topological_order (t : List prim) (hnodup : (allIds t).Nodup) :
    ((∀ p ∈ t, ∀ d ∈ p.deps, d ∈ allIds t) →
       ((∀ x, ¬ Relation.TransGen (edgeRel t) x x) →
          ∃ L, finalize t = Except.ok L ∧ L.Perm (allIds t) ∧
            ∀ u v, edgeRel t u v → idxOf u L < idxOf v L) ∧
       ((∃ x, Relation.TransGen (edgeRel t) x x) →
          finalize t = Except.error topo_error.CycleDetected)) ∧
    ((¬ ∀ p ∈ t, ∀ d ∈ p.deps, d ∈ allIds t) →
       finalize t = Except.error topo_error.UnknownReference) := by
  constructor
  · intro hnd
    have hdang : hasDangling t = false := hasDangling_eq_false_iff.mpr hnd
    constructor
    · intro hacyc
      obtain ⟨L, hL⟩ := kahnAux_ok_of_acyclic t hnd hacyc t.length [] t
        (Nat.le_refl _) (fun x hx => Or.inr hx) (fun q hq => hq)
      obtain ⟨hperm, hsound⟩ := kahnAux_sound t hnodup t.length [] t L
        (by simp) (fun q hq => hq)
        (by intro v hv; cases hv) hL
      refine ⟨L, by simp [finalize, hdang, hL], hperm, ?_⟩
      intro u v hedge
      have hvL : v ∈ L := by
        obtain ⟨p, hpt, hpid, _⟩ := hedge
        exact hperm.mem_iff.mpr (hpid ▸ List.mem_map_of_mem prim.id hpt)
      exact (hsound v hvL u hedge).2
    · rintro ⟨x, hx⟩
      rcases kahnAux_ok_or_cycle t.length [] t with ⟨L, hL⟩ | hL
      · exfalso
        obtain ⟨hperm, hsound⟩ := kahnAux_sound t hnodup t.length [] t L
          (by simp) (fun q hq => hq)
          (by intro v hv; cases hv) hL
        exact Nat.lt_irrefl _ (idxOf_lt_of_transGen t L hperm hsound x x hx)
      · simp [finalize, hdang, hL]
  · intro hnd
    have hdang : hasDangling t = true := by
      rcases Bool.eq_false_or_eq_true (hasDangling t) with ht | hf
      · exact ht
      · exact absurd (hasDangling_eq_false_iff.mp hf) hnd
    simp [finalize, hdang]

/-- A concrete two-primitive topology: a source node `"a"` and a
pooling node `"b"` (built by the source constructor) reading it. -/
def twoNodeTopo : List prim :=
  [⟨"a", [], []⟩,
   (pooling.create "b" "a" pooling_mode.max tensor.zero tensor.zero tensor.zero "" {}).toPrim]

theorem twoNodeTopo_edge {u v : primitive_id} (h : edgeRel twoNodeTopo u v) :
    u = "a" ∧ v = "b" := by
  obtain ⟨p, hp, hpid, hu⟩ := h
  have hcases : p = (⟨"a", [], []⟩ : prim) ∨ p = (⟨"b", ["a"], []⟩ : prim) := by
    have hb : (pooling.create "b" "a" pooling_mode.max tensor.zero tensor.zero
        tensor.zero "" {}).toPrim = (⟨"b", ["a"], []⟩ : prim) := by
      decide
    rcases List.mem_cons.mp hp with h1 | h1
    · exact Or.inl h1
    · rcases List.mem_cons.mp h1 with h2 | h2
      · exact Or.inr (hb ▸ h2)
      · cases h2
  rcases hcases with h1 | h1
  · subst h1
    simp [prim.deps] at hu
  · subst h1
    refine ⟨?_, hpid.symm⟩
    simpa [prim.deps] using hu

theorem twoNodeTopo_acyclic : ∀ x, ¬ Relation.TransGen (edgeRel twoNodeTopo) x x := by
  intro x hx
  obtain ⟨b, hxb, hbx⟩ := Relation.TransGen.head'_iff.mp hx
  obtain ⟨hxa, hbb⟩ := twoNodeTopo_edge hxb
  subst hxa
  subst hbb
  rcases Relation.ReflTransGen.cases_head hbx with heq | ⟨c, hbc, _⟩
  · exact absurd heq (by decide)
  · exact absurd (twoNodeTopo_edge hbc).1 (by decide)

/-- Witness for C7: on the concrete two-node topology `finalize`
succeeds with an order covering both ids and respecting the edge. -/
theorem finalize_topological_order_witness :
    ∃ L, finalize twoNodeTopo = Except.ok L ∧ L.Perm (allIds twoNodeTopo) ∧
      ∀ u v, edgeRel twoNodeTopo u v → idxOf u L < idxOf v L :=
  ((finalize_topological_order twoNodeTopo (by decide)).1 (by decide)).1 twoNodeTopo_acyclic
